import Mathlib

/-!
Verification of the weighting and backtesting engine of the market rotation
repository, a shallow embedding of `app/services/strategy.py`.

Modelling conventions:
* Instrument symbols (ticker strings) are modelled by naturals; the Python
  lexicographic order on ticker strings is modelled by the order on the naturals.
* Python floats are modelled by exact rationals.  A value that is NaN (for
  example an indicator entry inside its warm-up window) or otherwise nonfinite
  is modelled by `none` in `Option ℚ`; any comparison against such a value is
  false, as in IEEE semantics.
* The Python builtin `round` (banker rounding, ties to even) is modelled by
  `pyRound`, and `round(x, 2)` by `pyRound2`.
* Python dicts with rational values are modelled by association lists
  (`List (Symbol × ℚ)`) whose keys are distinct; `dict.get(k, d)` is `lookupD`.
* Raised exceptions are modelled by `none` in an `Option` result type.
-/

/-- Python builtin `round` on a rational: nearest integer, ties to even. -/
def pyRound (q : ℚ) : ℤ :=
  if q - ⌊q⌋ < 1/2 then ⌊q⌋
  else if 1/2 < q - ⌊q⌋ then ⌊q⌋ + 1
  else if ⌊q⌋ % 2 = 0 then ⌊q⌋ else ⌊q⌋ + 1

/-- Python `round(x, 2)`: round to two decimal places, ties to even. -/
def pyRound2 (q : ℚ) : ℚ :=
  (pyRound (q * 100) : ℚ) / 100

theorem pyRound_intCast (n : ℤ) : pyRound (n : ℚ) = n := by
  norm_num [pyRound, Int.floor_intCast]

theorem pyRound_int_add_half (n : ℤ) :
    pyRound ((n : ℚ) + 1/2) = if n % 2 = 0 then n else n + 1 := by
  have hfl : ⌊(n : ℚ) + 1/2⌋ = n := by
    rw [add_comm, Int.floor_add_int]
    norm_num
  have h2 : (n : ℚ) + 1/2 - (n : ℚ) = 1/2 := by ring
  unfold pyRound
  rw [hfl, h2]
  norm_num

/-- `pyRound` lands on a nearest integer: no other integer is closer. -/
theorem pyRound_nearest (q : ℚ) (m : ℤ) :
    |(pyRound q : ℚ) - q| ≤ |(m : ℚ) - q| := by
  have hfl : ((⌊q⌋ : ℚ)) ≤ q := Int.floor_le q
  have hfu : q < (⌊q⌋ : ℚ) + 1 := Int.lt_floor_add_one q
  have hm : ((m : ℚ) ≤ (⌊q⌋ : ℚ)) ∨ ((⌊q⌋ : ℚ) + 1 ≤ (m : ℚ)) := by
    rcases le_or_lt m ⌊q⌋ with h | h
    · exact Or.inl (by exact_mod_cast h)
    · exact Or.inr (by exact_mod_cast h)
  have hc : (((pyRound q : ℤ) : ℚ) = (⌊q⌋ : ℚ) ∧ q - (⌊q⌋ : ℚ) ≤ 1/2) ∨
      (((pyRound q : ℤ) : ℚ) = (⌊q⌋ : ℚ) + 1 ∧ (⌊q⌋ : ℚ) + 1 - q ≤ 1/2) := by
    unfold pyRound
    split_ifs with h1 h2 h3
    · exact Or.inl ⟨rfl, le_of_lt h1⟩
    · exact Or.inr ⟨by push_cast; ring, by linarith⟩
    · exact Or.inl ⟨rfl, by linarith⟩
    · exact Or.inr ⟨by push_cast; ring, by linarith⟩
  rcases hc with ⟨he, hd⟩ | ⟨he, hd⟩ <;> rw [he] <;> rcases hm with hm | hm
  · rw [abs_sub_comm, abs_of_nonneg (by linarith), abs_sub_comm, abs_of_nonneg (by linarith)]
    linarith
  · rw [abs_sub_comm, abs_of_nonneg (by linarith), abs_of_nonneg (by linarith)]
    linarith
  · rw [abs_of_nonneg (by linarith), abs_sub_comm, abs_of_nonneg (by linarith)]
    linarith
  · rw [abs_of_nonneg (by linarith), abs_of_nonneg (by linarith)]
    linarith

/-- Rounding to two decimals is the identity on multiples of one twentieth. -/
theorem pyRound2_grid (n : ℤ) : pyRound2 ((n : ℚ) / 20) = (n : ℚ) / 20 := by
  have h : ((n : ℚ) / 20) * 100 = ((5 * n : ℤ) : ℚ) := by push_cast; ring
  rw [pyRound2, h, pyRound_intCast]
  push_cast
  ring

/-- Instrument symbols; ticker strings ordered alphabetically are modelled by
naturals with their usual order. -/
abbrev Ticker : Type := ℕ

/-- A Python dict from ticker to float weight, as an association list. -/
abbrev Weights : Type := List (Ticker × ℚ)

/-- Python `d.get(k, default)` on a weight dict. -/
def lookupD (w : Weights) (t : Ticker) (d : ℚ) : ℚ :=
  (List.lookup t w).getD d

/-- Python `sum(d.values())`. -/
def sumW (w : Weights) : ℚ :=
  (List.map Prod.snd w).sum

/-- Python `d[k] = f(d[k])`: rewrite the value stored at one key. -/
def setW (w : Weights) (k : Ticker) (f : ℚ → ℚ) : Weights :=
  List.map (fun p => if p.1 = k then (p.1, f p.2) else p) w

/-- Python `max(candidates, key=lambda t: (weights[t], t))`: the candidate with
the lexicographically largest (rounded weight, ticker) pair. -/
def pickMax (w : Weights) : List Ticker → Option Ticker
  | [] => none
  | c :: cs => some (List.foldl
      (fun best t =>
        if lookupD w best 0 < lookupD w t 0 ∨
           (lookupD w t 0 = lookupD w best 0 ∧ best < t) then t else best)
      c cs)

/-- One weight of the rounding pass of `get_signals` (lines 134-141 of
`strategy.py`): `round(w / 0.05) * 0.05` followed by `round(_, 2)`. -/
def roundToGrid (w : ℚ) : ℚ :=
  pyRound2 ((pyRound (w / (1/20)) : ℚ) * (1/20))

/-- The independent rounding pass of `get_signals` (lines 134-141): every
weight is rounded to the nearest multiple of 0.05 and cleaned to 2 decimals. -/
def roundStage (tw : Weights) : Weights :=
  List.map (fun p => (p.1, roundToGrid p.2)) tw

/-- The candidate list for the residual repair (lines 148-152): all tickers,
except that strict mode drops the benchmark when another candidate exists. -/
def candList (relaxed : Bool) (bench : Ticker) (f2 : Weights) : List Ticker :=
  if !relaxed && (List.map Prod.fst f2).contains bench &&
      decide (1 < (List.map Prod.fst f2).length)
  then (List.map Prod.fst f2).filter (fun c => c != bench)
  else List.map Prod.fst f2

/-- The residual repair of `get_signals` (lines 143-162): if
`diff = round(1 - total, 2)` is nonzero, add it to the candidate with the
largest (weight, ticker) pair and re-round that entry to 2 decimals. -/
def applyDiff (relaxed : Bool) (bench : Ticker) (f2 : Weights) : Weights :=
  if pyRound2 (1 - sumW f2) = 0 then f2
  else
    match pickMax f2 (candList relaxed bench f2) with
    | some mt => setW f2 mt (fun v => pyRound2 (v + pyRound2 (1 - sumW f2)))
    | none =>
        if (List.map Prod.fst f2).contains bench
        then setW f2 bench (fun v => v + pyRound2 (1 - sumW f2)) else f2

/-- The discretization step of `RotationStrategy.get_signals` (lines 134-163):
round every weight to the nearest 0.05, clean to two decimals, then repair the
residual so that the final weights sum to one. -/
def discretize (relaxed : Bool) (bench : Ticker) (tw : Weights) : Weights :=
  applyDiff relaxed bench (roundStage tw)

theorem roundToGrid_eq (w : ℚ) :
    roundToGrid w = ((pyRound (20 * w) : ℤ) : ℚ) / 20 := by
  have hd : w / (1/20) = 20 * w := by ring
  have h : ((pyRound (20 * w) : ℤ) : ℚ) * (1/20) = ((pyRound (20 * w) : ℤ) : ℚ) / 20 := by
    ring
  rw [roundToGrid, hd, h, pyRound2_grid]

theorem roundToGrid_grid (w : ℚ) : ∃ n : ℤ, roundToGrid w = (n : ℚ) / 20 :=
  ⟨pyRound (20 * w), roundToGrid_eq w⟩

theorem roundToGrid_nearest (w : ℚ) (m : ℤ) :
    |roundToGrid w - w| ≤ |(m : ℚ) / 20 - w| := by
  rw [roundToGrid_eq]
  have key := pyRound_nearest (20 * w) m
  have e1 : |((pyRound (20 * w) : ℤ) : ℚ) / 20 - w| =
      |((pyRound (20 * w) : ℤ) : ℚ) - 20 * w| / 20 := by
    rw [show ((pyRound (20 * w) : ℤ) : ℚ) / 20 - w =
        (((pyRound (20 * w) : ℤ) : ℚ) - 20 * w) / 20 by ring, abs_div]
    norm_num
  have e2 : |(m : ℚ) / 20 - w| = |(m : ℚ) - 20 * w| / 20 := by
    rw [show (m : ℚ) / 20 - w = ((m : ℚ) - 20 * w) / 20 by ring, abs_div]
    norm_num
  rw [e1, e2]
  linarith

theorem lookup_cons (k : Ticker) (v : ℚ) (w : Weights) (t : Ticker) :
    List.lookup t ((k, v) :: w) = if t = k then some v else List.lookup t w := by
  by_cases h : t = k
  · have hb : (t == k) = true := beq_iff_eq.mpr h
    simp [List.lookup, hb, h]
  · have hb : (t == k) = false := beq_false_of_ne h
    simp [List.lookup, hb, h]

theorem sumW_nil : sumW ([] : Weights) = 0 := rfl

theorem sumW_pair (k : Ticker) (v : ℚ) (w : Weights) :
    sumW ((k, v) :: w) = v + sumW w := by
  simp [sumW]

theorem keys_setW (w : Weights) (k : Ticker) (f : ℚ → ℚ) :
    List.map Prod.fst (setW w k f) = List.map Prod.fst w := by
  induction w with
  | nil => rfl
  | cons a w ih =>
      by_cases h : a.1 = k <;> simp [setW, h] at ih ⊢ <;> exact ih

theorem setW_of_not_mem (w : Weights) (k : Ticker) (f : ℚ → ℚ)
    (h : k ∉ List.map Prod.fst w) : setW w k f = w := by
  induction w with
  | nil => rfl
  | cons a w ih =>
      have hhead : a.1 ≠ k := by
        intro hc
        exact h (by rw [List.map_cons, ← hc]; exact List.mem_cons_self _ _)
      have htail : k ∉ List.map Prod.fst w := by
        intro hc
        exact h (by rw [List.map_cons]; exact List.mem_cons_of_mem _ hc)
      show (if a.1 = k then (a.1, f a.2) else a) :: setW w k f = a :: w
      rw [if_neg hhead, ih htail]

theorem lookup_setW_ne (w : Weights) (k k' : Ticker) (f : ℚ → ℚ) (h : k' ≠ k) :
    List.lookup k' (setW w k f) = List.lookup k' w := by
  induction w with
  | nil => rfl
  | cons a w ih =>
      obtain ⟨ak, av⟩ := a
      show List.lookup k' ((if ak = k then (ak, f av) else (ak, av)) :: setW w k f) =
        List.lookup k' ((ak, av) :: w)
      by_cases hk : ak = k
      · rw [if_pos hk, lookup_cons, lookup_cons]
        have hne : k' ≠ ak := fun hc => h (hc.trans hk)
        rw [if_neg hne, if_neg hne]
        exact ih
      · rw [if_neg hk, lookup_cons, lookup_cons]
        by_cases ht : k' = ak
        · rw [if_pos ht, if_pos ht]
        · rw [if_neg ht, if_neg ht]
          exact ih

theorem lookup_some_of_mem_keys (w : Weights) (t : Ticker)
    (h : t ∈ List.map Prod.fst w) : ∃ v, List.lookup t w = some v := by
  induction w with
  | nil => simp at h
  | cons a w ih =>
      obtain ⟨ak, av⟩ := a
      by_cases ht : t = ak
      · exact ⟨av, by rw [lookup_cons, if_pos ht]⟩
      · simp only [List.map_cons, List.mem_cons] at h
        rcases h with h | h
        · exact absurd h ht
        · obtain ⟨v, hv⟩ := ih h
          exact ⟨v, by rw [lookup_cons, if_neg ht]; exact hv⟩

theorem lookup_mem (w : Weights) (t : Ticker) (v : ℚ)
    (h : List.lookup t w = some v) : (t, v) ∈ w := by
  induction w with
  | nil => simp [List.lookup] at h
  | cons a w ih =>
      obtain ⟨ak, av⟩ := a
      rw [lookup_cons] at h
      by_cases ht : t = ak
      · rw [if_pos ht] at h
        have hv : av = v := Option.some_inj.mp h
        rw [ht, ← hv]
        exact List.mem_cons_self _ _
      · rw [if_neg ht] at h
        exact List.mem_cons_of_mem _ (ih h)

theorem sumW_setW (w : Weights) (k : Ticker) (f : ℚ → ℚ) (v : ℚ)
    (hnd : (List.map Prod.fst w).Nodup) (hv : List.lookup k w = some v) :
    sumW (setW w k f) = sumW w - v + f v := by
  induction w with
  | nil => simp [List.lookup] at hv
  | cons a w ih =>
      obtain ⟨ak, av⟩ := a
      simp only [List.map_cons, List.nodup_cons] at hnd
      rw [lookup_cons] at hv
      show sumW ((if ak = k then (ak, f av) else (ak, av)) :: setW w k f) =
        sumW ((ak, av) :: w) - v + f v
      by_cases hk : ak = k
      · rw [if_pos hk.symm] at hv
        have hav : av = v := Option.some_inj.mp hv
        rw [if_pos hk, sumW_pair, sumW_pair,
          setW_of_not_mem w k f (by rw [← hk]; exact hnd.1), hav]
        ring
      · have hk' : ¬ k = ak := fun hc => hk hc.symm
        rw [if_neg hk'] at hv
        rw [if_neg hk, sumW_pair, sumW_pair, ih hnd.2 hv]
        ring

theorem mem_setW (w : Weights) (k : Ticker) (f : ℚ → ℚ) (p : Ticker × ℚ)
    (h : p ∈ setW w k f) : p ∈ w ∨ ∃ q ∈ w, p = (q.1, f q.2) := by
  obtain ⟨q, hq, hpq⟩ := List.mem_map.mp h
  by_cases hk : q.1 = k
  · right
    exact ⟨q, hq, by rw [← hpq]; simp [hk]⟩
  · left
    rw [← hpq]
    simp only [hk, if_false]
    exact hq

theorem foldl_pick_mem (g : Ticker → Ticker → Ticker)
    (hg : ∀ b t, g b t = b ∨ g b t = t) :
    ∀ (cs : List Ticker) (c : Ticker), List.foldl g c cs ∈ c :: cs := by
  intro cs
  induction cs with
  | nil => intro c; simp
  | cons a cs ih =>
      intro c
      simp only [List.foldl_cons]
      have h1 := ih (g c a)
      rcases List.mem_cons.mp h1 with he | hm
      · rcases hg c a with h | h
        · rw [he, h]
          exact List.mem_cons_self _ _
        · rw [he, h]
          exact List.mem_cons_of_mem _ (List.mem_cons_self _ _)
      · exact List.mem_cons_of_mem _ (List.mem_cons_of_mem _ hm)

theorem pickMax_mem (w : Weights) (cand : List Ticker) (mt : Ticker)
    (h : pickMax w cand = some mt) : mt ∈ cand := by
  match cand with
  | [] => simp [pickMax] at h
  | c :: cs =>
      simp only [pickMax, Option.some_inj] at h
      rw [← h]
      exact foldl_pick_mem _ (fun b t => by by_cases hbt : lookupD w b 0 < lookupD w t 0 ∨
        (lookupD w t 0 = lookupD w b 0 ∧ b < t) <;> simp [hbt]) cs c

theorem grid_sum (w : Weights) (h : ∀ p ∈ w, ∃ k : ℤ, p.2 = (k : ℚ) / 20) :
    ∃ K : ℤ, sumW w = (K : ℚ) / 20 := by
  induction w with
  | nil => exact ⟨0, by simp [sumW]⟩
  | cons a w ih =>
      obtain ⟨k, hk⟩ := h a (List.mem_cons_self a w)
      obtain ⟨K, hK⟩ := ih (fun p hp => h p (List.mem_cons_of_mem a hp))
      refine ⟨k + K, ?_⟩
      obtain ⟨ak, av⟩ := a
      rw [sumW_pair]
      simp only at hk
      rw [hk, hK]
      push_cast
      ring

theorem contains_iff (l : List Ticker) (a : Ticker) : l.contains a = true ↔ a ∈ l := by
  simp [List.contains]

theorem keys_roundStage (tw : Weights) :
    List.map Prod.fst (roundStage tw) = List.map Prod.fst tw := by
  simp [roundStage, List.map_map]

theorem grid_roundStage (tw : Weights) :
    ∀ p ∈ roundStage tw, ∃ k : ℤ, p.2 = (k : ℚ) / 20 := by
  intro p hp
  obtain ⟨q, hq, hpq⟩ := List.mem_map.mp hp
  rw [← hpq]
  exact roundToGrid_grid q.2

/-- Core property of the residual repair: on a nonempty weight dict with
distinct keys whose values all lie on the 0.05 grid, the output sums to
exactly one and stays on the grid. -/
theorem applyDiff_spec (rel : Bool) (b : Ticker) (f2 : Weights)
    (hne : f2 ≠ [])
    (hnd : (List.map Prod.fst f2).Nodup)
    (hgrid : ∀ p ∈ f2, ∃ k : ℤ, p.2 = (k : ℚ) / 20) :
    sumW (applyDiff rel b f2) = 1 ∧
      ∀ p ∈ applyDiff rel b f2, ∃ k : ℤ, p.2 = (k : ℚ) / 20 := by
  obtain ⟨K, hK⟩ := grid_sum f2 hgrid
  have hdiff : pyRound2 (1 - sumW f2) = ((20 - K : ℤ) : ℚ) / 20 := by
    rw [hK, show (1 : ℚ) - (K : ℚ) / 20 = ((20 - K : ℤ) : ℚ) / 20 by push_cast; ring,
      pyRound2_grid]
  by_cases h0 : pyRound2 (1 - sumW f2) = 0
  · constructor
    · have hz : ((20 - K : ℤ) : ℚ) / 20 = 0 := by rw [← hdiff]; exact h0
      have hK20 : (K : ℚ) = 20 := by
        have : ((20 - K : ℤ) : ℚ) = 0 := by
          field_simp at hz
          exact_mod_cast hz
        push_cast at this
        linarith
      simp only [applyDiff, if_pos h0]
      rw [hK, hK20]
      norm_num
    · simp only [applyDiff, if_pos h0]
      exact hgrid
  · have hkeysne : List.map Prod.fst f2 ≠ [] := by
      cases f2 with
      | nil => exact absurd rfl hne
      | cons a w => simp
    have hcand : candList rel b f2 ≠ [] := by
      unfold candList
      split_ifs with hc
      · simp only [Bool.and_eq_true, decide_eq_true_eq] at hc
        obtain ⟨⟨_, hcont⟩, hlen⟩ := hc
        have hb : b ∈ List.map Prod.fst f2 := (contains_iff _ _).mp hcont
        have herase := hnd.erase_eq_filter b
        have hlene : ((List.map Prod.fst f2).filter (fun c => c != b)).length =
            (List.map Prod.fst f2).length - 1 := by
          rw [← herase]
          exact List.length_erase_of_mem hb
        intro hnil
        rw [hnil] at hlene
        simp only [List.length_nil] at hlene
        omega
      · exact hkeysne
    cases hpm : pickMax f2 (candList rel b f2) with
    | none =>
        obtain ⟨c, cs, hcc⟩ := List.exists_cons_of_ne_nil hcand
        rw [hcc] at hpm
        simp [pickMax] at hpm
    | some mt =>
        have hmem : mt ∈ candList rel b f2 := pickMax_mem _ _ _ hpm
        have hmemk : mt ∈ List.map Prod.fst f2 := by
          unfold candList at hmem
          split_ifs at hmem with hc
          · exact List.mem_of_mem_filter hmem
          · exact hmem
        obtain ⟨v, hv⟩ := lookup_some_of_mem_keys f2 mt hmemk
        have hvg : ∃ k : ℤ, v = (k : ℚ) / 20 := hgrid (mt, v) (lookup_mem f2 mt v hv)
        obtain ⟨kv, hkv⟩ := hvg
        have hres : applyDiff rel b f2 =
            setW f2 mt (fun x => pyRound2 (x + pyRound2 (1 - sumW f2))) := by
          unfold applyDiff
          rw [if_neg h0, hpm]
        constructor
        · rw [hres,
            sumW_setW f2 mt (fun x => pyRound2 (x + pyRound2 (1 - sumW f2))) v hnd hv]
          rw [hdiff, hkv,
            show (kv : ℚ) / 20 + ((20 - K : ℤ) : ℚ) / 20 = ((kv + 20 - K : ℤ) : ℚ) / 20
              by push_cast; ring,
            pyRound2_grid, hK]
          push_cast
          ring
        · intro p hp
          rw [hres] at hp
          rcases mem_setW _ _ _ _ hp with h | ⟨q, hq, hpq⟩
          · exact hgrid p h
          · obtain ⟨kq, hkq⟩ := hgrid q hq
            rw [hpq]
            refine ⟨kq + 20 - K, ?_⟩
            rw [hkq, hdiff,
              show (kq : ℚ) / 20 + ((20 - K : ℤ) : ℚ) / 20 = ((kq + 20 - K : ℤ) : ℚ) / 20
                by push_cast; ring,
              pyRound2_grid]

/-- The discretizer always returns weights that sum to exactly one and lie on
the 0.05 grid, for any nonempty input dict with distinct keys. -/
theorem discretize_spec (rel : Bool) (b : Ticker) (tw : Weights)
    (hne : tw ≠ [])
    (hnd : (List.map Prod.fst tw).Nodup) :
    sumW (discretize rel b tw) = 1 ∧
      ∀ p ∈ discretize rel b tw, ∃ k : ℤ, p.2 = (k : ℚ) / 20 := by
  have hne2 : roundStage tw ≠ [] := by
    cases tw with
    | nil => exact absurd rfl hne
    | cons a w => simp [roundStage]
  have hnd2 : (List.map Prod.fst (roundStage tw)).Nodup := by
    rw [keys_roundStage]
    exact hnd
  exact applyDiff_spec rel b (roundStage tw) hne2 hnd2 (grid_roundStage tw)

/-- A trading date (pandas timestamp) is modelled by a natural number. -/
abbrev Date : Type := ℕ

/-- One row of a date indexed table: the float value per ticker, with `none`
for NaN (for example an indicator still inside its warm-up window). -/
abbrev Row : Type := Ticker → Option ℚ

/-- Shallow state of a `RotationStrategy` instance: the price table index, the
three date indexed tables consulted by `get_signals` (close prices, 50 day
moving average, 63 day return), and the constructor arguments.  The indicator
tables are fields, exactly like the attributes set by `calculate_indicators`;
every theorem below therefore holds for arbitrary indicator contents. -/
structure Rot where
  dates : List Date
  priceAt : Date → Row
  maAt : Date → Row
  r3At : Date → Row
  base_weights : Weights
  trend_adj : ℚ
  rel_adj : ℚ
  benchmark : Ticker
  relaxed_constraint : Bool

/-- Python float comparison `a > b`: false whenever either side is NaN. -/
def gtF (a b : Option ℚ) : Bool :=
  match a, b with
  | some x, some y => decide (y < x)
  | _, _ => false

/-- `self.tickers = sorted(list(base_weights.keys()))`. -/
def tickersOf (S : Rot) : List Ticker :=
  List.insertionSort (· ≤ ·) (List.map Prod.fst S.base_weights)

/-- One clamped raw weight of the relaxed branch of `get_signals` (lines
60-80): base weight, plus or minus the trend adjustment, plus or minus the
relative adjustment (skipped for the benchmark), clamped at zero. -/
def rawWeight (S : Rot) (d : Date) (t : Ticker) : ℚ :=
  max 0 ((lookupD S.base_weights t 0 +
    (if gtF (S.priceAt d t) (S.maAt d t) then S.trend_adj else -S.trend_adj)) +
    (if t ≠ S.benchmark then
      (if gtF (S.r3At d t) (S.r3At d S.benchmark) then S.rel_adj else -S.rel_adj)
     else 0))

/-- The relaxed branch of `get_signals` (lines 55-88): normalize all clamped
raw weights by their sum, or fall back to the base weight dict when the sum is
not positive. -/
def relaxedTarget (S : Rot) (d : Date) : Weights :=
  if 0 < sumW (List.map (fun t => (t, rawWeight S d t)) (tickersOf S)) then
    List.map (fun t => (t, rawWeight S d t /
      sumW (List.map (fun u => (u, rawWeight S d u)) (tickersOf S)))) (tickersOf S)
  else S.base_weights

/-- One clamped adjusted weight of the strict branch of `get_signals` (lines
96-115), applied only to non-benchmark tickers. -/
def strictAdj (S : Rot) (d : Date) (t : Ticker) : ℚ :=
  max 0 ((lookupD S.base_weights t 0 +
    (if gtF (S.priceAt d t) (S.maAt d t) then S.trend_adj else -S.trend_adj)) +
    (if gtF (S.r3At d t) (S.r3At d S.benchmark) then S.rel_adj else -S.rel_adj))

/-- The non-benchmark entries of the strict branch before normalization. -/
def strictOthers (S : Rot) (d : Date) : Weights :=
  List.map (fun t => (t, strictAdj S d t))
    (List.filter (fun t => t != S.benchmark) (tickersOf S))

/-- The normalized non-benchmark entries of the strict branch (lines
117-129): rescaled to fill `1 - benchmark_weight`, falling back to base
weight proportions when the adjusted weights all clamp to zero. -/
def strictRest (S : Rot) (d : Date) : Weights :=
  if 0 < sumW (strictOthers S d) then
    List.map (fun p => (p.1, p.2 / sumW (strictOthers S d) *
      (1 - lookupD S.base_weights S.benchmark 0))) (strictOthers S d)
  else if 0 < (List.map (fun p => lookupD S.base_weights p.1 0) (strictOthers S d)).sum then
    List.map (fun p => (p.1, lookupD S.base_weights p.1 0 /
      (List.map (fun q => lookupD S.base_weights q.1 0) (strictOthers S d)).sum *
      (1 - lookupD S.base_weights S.benchmark 0))) (strictOthers S d)
  else strictOthers S d

/-- The strict branch of `get_signals` (lines 90-132): the benchmark weight is
pinned to its base weight; the other weights are rescaled to fill
`1 - benchmark_weight`. -/
def strictTarget (S : Rot) (d : Date) : Weights :=
  (S.benchmark, lookupD S.base_weights S.benchmark 0) :: strictRest S d

/-- The continuous (pre-discretization) target weights of `get_signals`. -/
def targetWeights (S : Rot) (d : Date) : Weights :=
  if S.relaxed_constraint then relaxedTarget S d else strictTarget S d

/-- Date resolution of `get_signals` (lines 40-45): an exact hit, else the
closest previous trading day (`get_indexer` with `method=pad` on the strictly
increasing index), else no date at all. -/
def resolveDate (dates : List Date) (q : Date) : Option Date :=
  List.getLast? (List.filter (fun d => d ≤ q) dates)

/-- `RotationStrategy.get_signals`: resolve the query date, compute the mode
specific continuous target weights, then discretize.  When no prior trading
day exists, the base weight dict itself is returned together with three empty
dicts (modelled by `none`). -/
def getSignals (S : Rot) (q : Date) : Weights × Option Row × Option Row × Option Row :=
  match resolveDate S.dates q with
  | none => (S.base_weights, none, none, none)
  | some d => (discretize S.relaxed_constraint S.benchmark (targetWeights S d),
      some (S.priceAt d), some (S.maAt d), some (S.r3At d))

theorem keys_map_pair (l : List Ticker) (f : Ticker → ℚ) :
    List.map Prod.fst (List.map (fun t => (t, f t)) l) = l := by
  simp only [List.map_map]
  exact List.map_id' l

theorem keys_map_entry (w : Weights) (g : Ticker × ℚ → ℚ) :
    List.map Prod.fst (List.map (fun p => (p.1, g p)) w) = List.map Prod.fst w := by
  simp [List.map_map]

theorem tickers_perm (S : Rot) :
    (tickersOf S).Perm (List.map Prod.fst S.base_weights) :=
  List.perm_insertionSort _ _

theorem tickers_nodup (S : Rot) (hnd : (List.map Prod.fst S.base_weights).Nodup) :
    (tickersOf S).Nodup :=
  ((tickers_perm S).nodup_iff).mpr hnd

theorem mem_tickers (S : Rot) (t : Ticker) :
    t ∈ tickersOf S ↔ t ∈ List.map Prod.fst S.base_weights :=
  (tickers_perm S).mem_iff

theorem tickersOf_ne_nil (S : Rot) (hne : S.base_weights ≠ []) : tickersOf S ≠ [] := by
  intro hc
  have hlen := (tickers_perm S).length_eq
  rw [hc] at hlen
  cases hb : S.base_weights with
  | nil => exact hne hb
  | cons a w => rw [hb] at hlen; simp at hlen

theorem keys_strictOthers (S : Rot) (d : Date) :
    List.map Prod.fst (strictOthers S d) =
      List.filter (fun t => t != S.benchmark) (tickersOf S) :=
  keys_map_pair _ _

theorem keys_strictRest (S : Rot) (d : Date) :
    List.map Prod.fst (strictRest S d) =
      List.filter (fun t => t != S.benchmark) (tickersOf S) := by
  unfold strictRest
  split_ifs with h1 h2
  · exact (keys_map_entry _ _).trans (keys_strictOthers S d)
  · exact (keys_map_entry _ _).trans (keys_strictOthers S d)
  · exact keys_strictOthers S d

theorem keys_strictTarget (S : Rot) (d : Date) :
    List.map Prod.fst (strictTarget S d) =
      S.benchmark :: List.filter (fun t => t != S.benchmark) (tickersOf S) := by
  unfold strictTarget
  simp only [List.map_cons]
  congr 1
  exact keys_strictRest S d

theorem targetWeights_ne_nil (S : Rot) (d : Date) (hne : S.base_weights ≠ []) :
    targetWeights S d ≠ [] := by
  unfold targetWeights
  split_ifs with hmode
  · unfold relaxedTarget
    split_ifs with h
    · intro hc
      exact tickersOf_ne_nil S hne (List.map_eq_nil_iff.mp hc)
    · exact hne
  · exact List.cons_ne_nil _ _

theorem keys_targetWeights_nodup (S : Rot) (d : Date)
    (hnd : (List.map Prod.fst S.base_weights).Nodup) :
    (List.map Prod.fst (targetWeights S d)).Nodup := by
  unfold targetWeights
  split_ifs with hmode
  · unfold relaxedTarget
    split_ifs with h
    · rw [keys_map_pair]
      exact tickers_nodup S hnd
    · exact hnd
  · rw [keys_strictTarget]
    refine List.nodup_cons.mpr ⟨?_, ?_⟩
    · intro hc
      have := List.of_mem_filter hc
      simp at this
    · exact (tickers_nodup S hnd).filter _

/-- Claim C1: for every price table, base weight dict, mode, and query date
with an available prior trading day, the final weights of
`RotationStrategy.get_signals` sum to exactly 1.0 (hence within 1e-9) and
every individual weight is an exact multiple of 0.05 (hence within 1e-9),
provided the base weight dict is nonempty with distinct keys, as every Python
dict is. -/
theorem getSignals_sum_one_grid (S : Rot) (q d : Date)
    (hnd : (List.map Prod.fst S.base_weights).Nodup)
    (hne : S.base_weights ≠ [])
    (hres : resolveDate S.dates q = some d) :
    sumW (getSignals S q).1 = 1 ∧
      ∀ p ∈ (getSignals S q).1, ∃ k : ℤ, p.2 = (k : ℚ) / 20 := by
  have hgs : (getSignals S q).1 =
      discretize S.relaxed_constraint S.benchmark (targetWeights S d) := by
    unfold getSignals
    rw [hres]
  rw [hgs]
  exact discretize_spec S.relaxed_constraint S.benchmark (targetWeights S d)
    (targetWeights_ne_nil S d hne) (keys_targetWeights_nodup S d hnd)

/-- Concrete run backing claim C1: a three ticker strict mode strategy on a
one day table. -/
def exC1 : Rot :=
  { dates := [0, 1, 2]
    priceAt := fun _ _ => some 100
    maAt := fun _ _ => some 90
    r3At := fun _ t => some ((t : ℚ) / 100)
    base_weights := [(0, 2/5), (1, 3/10), (2, 3/10)]
    trend_adj := 1/10
    rel_adj := 1/20
    benchmark := 0
    relaxed_constraint := false }

theorem getSignals_sum_one_grid_witness :
    resolveDate exC1.dates 2 = some 2 ∧
      (sumW (getSignals exC1 2).1 = 1 ∧
        ∀ p ∈ (getSignals exC1 2).1, ∃ k : ℤ, p.2 = (k : ℚ) / 20) :=
  ⟨by decide, getSignals_sum_one_grid exC1 2 2 (by decide) (by decide) (by decide)⟩

theorem lookup_discretize_strict_bench (S : Rot) (d : Date)
    (hother : ∃ t, t ∈ List.map Prod.fst S.base_weights ∧ t ≠ S.benchmark) :
    List.lookup S.benchmark (discretize false S.benchmark (strictTarget S d)) =
      some (roundToGrid (lookupD S.base_weights S.benchmark 0)) := by
  obtain ⟨t0, ht0k, ht0ne⟩ := hother
  have ht0f : t0 ∈ List.filter (fun t => t != S.benchmark) (tickersOf S) := by
    apply List.mem_filter.mpr
    refine ⟨(mem_tickers S t0).mpr ht0k, ?_⟩
    simp [ht0ne]
  have hroundcons : roundStage (strictTarget S d) =
      (S.benchmark, roundToGrid (lookupD S.base_weights S.benchmark 0)) ::
        roundStage (strictRest S d) := rfl
  have hhead : List.lookup S.benchmark (roundStage (strictTarget S d)) =
      some (roundToGrid (lookupD S.base_weights S.benchmark 0)) := by
    rw [hroundcons, lookup_cons, if_pos rfl]
  have hkeys : List.map Prod.fst (roundStage (strictTarget S d)) =
      S.benchmark :: List.filter (fun t => t != S.benchmark) (tickersOf S) :=
    (keys_roundStage _).trans (keys_strictTarget S d)
  by_cases h0 : pyRound2 (1 - sumW (roundStage (strictTarget S d))) = 0
  · unfold discretize applyDiff
    rw [if_pos h0]
    exact hhead
  · have hbmem : S.benchmark ∈ List.map Prod.fst (roundStage (strictTarget S d)) := by
      rw [hkeys]
      exact List.mem_cons_self _ _
    have hcont : (List.map Prod.fst (roundStage (strictTarget S d))).contains S.benchmark
        = true := (contains_iff _ _).mpr hbmem
    have hlen : 1 < (List.map Prod.fst (roundStage (strictTarget S d))).length := by
      rw [hkeys]
      have : 0 < (List.filter (fun t => t != S.benchmark) (tickersOf S)).length :=
        List.length_pos.mpr (List.ne_nil_of_mem ht0f)
      simp only [List.length_cons]
      omega
    have hc : (!false &&
        (List.map Prod.fst (roundStage (strictTarget S d))).contains S.benchmark &&
        decide (1 < (List.map Prod.fst (roundStage (strictTarget S d))).length)) = true := by
      have hlen2 : 1 < (roundStage (strictTarget S d)).length := by
        have h := hlen
        rwa [List.length_map] at h
      rw [hcont]
      simp [hlen, hlen2]
    have hcandeq : candList false S.benchmark (roundStage (strictTarget S d)) =
        (List.map Prod.fst (roundStage (strictTarget S d))).filter
          (fun c => c != S.benchmark) := by
      unfold candList
      rw [if_pos hc]
    have ht0cand : t0 ∈ candList false S.benchmark (roundStage (strictTarget S d)) := by
      rw [hcandeq]
      apply List.mem_filter.mpr
      refine ⟨?_, by simp [ht0ne]⟩
      rw [hkeys]
      exact List.mem_cons_of_mem _ ht0f
    cases hpm : pickMax (roundStage (strictTarget S d))
        (candList false S.benchmark (roundStage (strictTarget S d))) with
    | none =>
        obtain ⟨c, cs, hcc⟩ := List.exists_cons_of_ne_nil (List.ne_nil_of_mem ht0cand)
        rw [hcc] at hpm
        simp [pickMax] at hpm
    | some mt =>
        have hmtmem := pickMax_mem _ _ _ hpm
        rw [hcandeq] at hmtmem
        have hmtne : mt ≠ S.benchmark := by
          have := List.of_mem_filter hmtmem
          simpa using this
        unfold discretize applyDiff
        rw [if_neg h0, hpm]
        rw [lookup_setW_ne _ _ _ _ (fun hc => hmtne hc.symm)]
        exact hhead

/-- Claim C2: in strict mode, for every query date with an available prior
trading day and at least one non benchmark ticker, the weight returned by
`get_signals` for the benchmark equals the benchmark base weight rounded to
the nearest multiple of 0.05, regardless of the trend and return inputs of
the other tickers (the price, moving average and return tables of `S` are
universally quantified). -/
theorem strict_benchmark_pinned (S : Rot) (q d : Date)
    (hmode : S.relaxed_constraint = false)
    (hres : resolveDate S.dates q = some d)
    (hother : ∃ t, t ∈ List.map Prod.fst S.base_weights ∧ t ≠ S.benchmark) :
    List.lookup S.benchmark (getSignals S q).1 =
      some (roundToGrid (lookupD S.base_weights S.benchmark 0)) ∧
    (∃ n : ℤ, roundToGrid (lookupD S.base_weights S.benchmark 0) = (n : ℚ) / 20 ∧
      ∀ m : ℤ, |roundToGrid (lookupD S.base_weights S.benchmark 0) -
          lookupD S.base_weights S.benchmark 0| ≤
        |(m : ℚ) / 20 - lookupD S.base_weights S.benchmark 0|) := by
  have htw : targetWeights S d = strictTarget S d := by
    unfold targetWeights
    rw [hmode]
    simp
  have hgs : (getSignals S q).1 =
      discretize false S.benchmark (strictTarget S d) := by
    unfold getSignals
    rw [hres]
    simp only
    rw [hmode, htw]
  rw [hgs]
  obtain ⟨n, hn⟩ := roundToGrid_grid (lookupD S.base_weights S.benchmark 0)
  exact ⟨lookup_discretize_strict_bench S d hother,
    n, hn, fun m => roundToGrid_nearest _ m⟩

/-- Concrete run backing claim C2: a two ticker strict strategy whose
benchmark base weight 0.37 rounds to 0.35. -/
def exC2 : Rot :=
  { dates := [7]
    priceAt := fun _ _ => some 50
    maAt := fun _ _ => some 10
    r3At := fun _ _ => some (1/10)
    base_weights := [(0, 37/100), (1, 63/100)]
    trend_adj := 1/10
    rel_adj := 1/20
    benchmark := 0
    relaxed_constraint := false }

theorem strict_benchmark_pinned_witness :
    (resolveDate exC2.dates 7 = some 7 ∧ (∃ t, t ∈ List.map Prod.fst exC2.base_weights ∧
        t ≠ exC2.benchmark)) ∧
    (List.lookup exC2.benchmark (getSignals exC2 7).1 =
        some (roundToGrid (lookupD exC2.base_weights exC2.benchmark 0)) ∧
      (∃ n : ℤ, roundToGrid (lookupD exC2.base_weights exC2.benchmark 0) = (n : ℚ) / 20 ∧
        ∀ m : ℤ, |roundToGrid (lookupD exC2.base_weights exC2.benchmark 0) -
            lookupD exC2.base_weights exC2.benchmark 0| ≤
          |(m : ℚ) / 20 - lookupD exC2.base_weights exC2.benchmark 0|)) :=
  ⟨⟨by decide, ⟨1, by decide, by decide⟩⟩,
    strict_benchmark_pinned exC2 7 7 rfl (by decide)
      ⟨1, by decide, by decide⟩⟩

/-- Claim C8: in relaxed mode, on a query date where every clamped
post-adjustment weight is zero, the relaxed branch of `get_signals` falls
back to the original base weight dict unchanged (no division by the zero sum
occurs), and the returned weights are the discretization of those base
weights. -/
theorem relaxed_all_zero_fallback (S : Rot) (q d : Date)
    (hmode : S.relaxed_constraint = true)
    (hres : resolveDate S.dates q = some d)
    (hz : ∀ t ∈ tickersOf S, rawWeight S d t = 0) :
    relaxedTarget S d = S.base_weights ∧
    (getSignals S q).1 = discretize true S.benchmark S.base_weights := by
  have hsum : sumW (List.map (fun t => (t, rawWeight S d t)) (tickersOf S)) = 0 := by
    unfold sumW
    rw [List.map_map]
    apply List.sum_eq_zero
    intro x hx
    obtain ⟨t, ht, hxe⟩ := List.mem_map.mp hx
    rw [← hxe]
    exact hz t ht
  have h1 : relaxedTarget S d = S.base_weights := by
    unfold relaxedTarget
    rw [hsum]
    simp
  refine ⟨h1, ?_⟩
  have htw : targetWeights S d = S.base_weights := by
    unfold targetWeights
    rw [hmode, if_pos rfl, h1]
  unfold getSignals
  rw [hres]
  simp only
  rw [hmode, htw]

/-- Concrete run backing claim C8: one ticker with base weight 0.05, downtrend
everywhere, so the single clamped weight is max(0, 0.05 - 0.10) = 0. -/
def exC8 : Rot :=
  { dates := [3]
    priceAt := fun _ _ => none
    maAt := fun _ _ => none
    r3At := fun _ _ => none
    base_weights := [(0, 1/20)]
    trend_adj := 1/10
    rel_adj := 1/20
    benchmark := 0
    relaxed_constraint := true }

theorem relaxed_all_zero_fallback_witness :
    (resolveDate exC8.dates 3 = some 3 ∧ ∀ t ∈ tickersOf exC8, rawWeight exC8 3 t = 0) ∧
    (relaxedTarget exC8 3 = exC8.base_weights ∧
      (getSignals exC8 3).1 = discretize true exC8.benchmark exC8.base_weights) := by
  have hz : ∀ t ∈ tickersOf exC8, rawWeight exC8 3 t = 0 := by
    intro t ht
    have he : tickersOf exC8 = [0] := by decide
    rw [he] at ht
    have htt : t = 0 := by simpa using ht
    subst htt
    have h1 : rawWeight exC8 3 0 = max 0 ((1/20 : ℚ) + -(1/10) + 0) := rfl
    rw [h1]
    exact max_eq_left (by norm_num)
  exact ⟨⟨by decide, hz⟩, relaxed_all_zero_fallback exC8 3 3 rfl (by decide) hz⟩

/-- Claim C10: for a query date strictly before every trading day in the
table, `get_signals` returns the caller base weight dict itself, without
discretization, together with empty dicts in place of the prices, moving
averages and returns. -/
theorem getSignals_before_data (S : Rot) (q : Date)
    (h : ∀ d ∈ S.dates, q < d) :
    getSignals S q = (S.base_weights, none, none, none) := by
  have hres : resolveDate S.dates q = none := by
    unfold resolveDate
    have hf : List.filter (fun d => d ≤ q) S.dates = [] := by
      rw [List.filter_eq_nil_iff]
      intro a ha
      have hlt := h a ha
      simp only [decide_eq_true_eq]
      exact Nat.not_le.mpr hlt
    rw [hf]
    rfl
  unfold getSignals
  rw [hres]

/-- Concrete run backing claim C10: base weights that sum to 0.6 and include
0.37, which is not a multiple of 0.05, are returned untouched for an early
query date. -/
def exC10 : Rot :=
  { dates := [5, 6]
    priceAt := fun _ _ => some 100
    maAt := fun _ _ => some 90
    r3At := fun _ _ => some 0
    base_weights := [(0, 37/100), (1, 23/100)]
    trend_adj := 1/10
    rel_adj := 1/20
    benchmark := 0
    relaxed_constraint := false }

theorem getSignals_before_data_witness :
    (∀ d ∈ exC10.dates, 2 < d) ∧
    getSignals exC10 2 = (exC10.base_weights, none, none, none) ∧
    sumW exC10.base_weights ≠ 1 ∧
    ¬ (∃ k : ℤ, (37 : ℚ) / 100 = (k : ℚ) / 20) :=
  ⟨by decide, getSignals_before_data exC10 2 (by decide), by norm_num [sumW, exC10],
    fun ⟨k, hk⟩ => by
      have h5 : (k : ℚ) = 37 / 5 := by
        field_simp at hk
        linarith
      have h6 : ((5 * k : ℤ) : ℚ) = 37 := by push_cast; linarith
      have h7 : (5 * k : ℤ) = 37 := by exact_mod_cast h6
      omega⟩

/-- The running streak state of `calculate_metrics` (lines 258-261). -/
structure Streaks where
  win : ℕ
  maxWin : ℕ
  lose : ℕ
  maxLose : ℕ
deriving DecidableEq, Repr

/-- One iteration of the monthly streak loop of `calculate_metrics` (lines
263-271): a positive return extends the winning streak and resets the losing
streak, a negative return does the reverse, and any other return matches
neither branch. -/
def streakStep (s : Streaks) (ret : ℚ) : Streaks :=
  if 0 < ret then
    { win := s.win + 1, maxWin := max s.maxWin (s.win + 1), lose := 0, maxLose := s.maxLose }
  else if ret < 0 then
    { win := 0, maxWin := s.maxWin, lose := s.lose + 1, maxLose := max s.maxLose (s.lose + 1) }
  else s

/-- The full streak scan over the monthly return list. -/
def calcStreaks (rets : List ℚ) : Streaks :=
  List.foldl streakStep ⟨0, 0, 0, 0⟩ rets

/-- `Series.pct_change().dropna()` on a value list: one relative change per
adjacent pair. -/
def pctChange (vals : List ℚ) : List ℚ :=
  List.map (fun p => p.2 / p.1 - 1) (List.zip vals vals.tail)

/-- The monthly winning and losing streak metrics of `calculate_metrics`, as a
function of the month end value list produced by the month end resample. -/
def monthlyStreaks (monthEndVals : List ℚ) : Streaks :=
  calcStreaks (pctChange monthEndVals)

/-- Claim C5 (counterexample): month end values 100, 110, 110, 121 give
monthly returns +10%, 0%, +10%, and the maximal winning streak computed by
`calculate_metrics` is 2 — it spans the zero return month, because a zero
return leaves the counters untouched instead of resetting them. -/
theorem zero_return_month_spans_streak :
    pctChange [100, 110, 110, 121] = [1/10, 0, 1/10] ∧
    (monthlyStreaks [100, 110, 110, 121]).maxWin = 2 ∧
    streakStep ⟨1, 1, 0, 0⟩ 0 = ⟨1, 1, 0, 0⟩ := by
  have h1 : pctChange [100, 110, 110, 121] = [1/10, 0, 1/10] := by
    norm_num [pctChange]
  refine ⟨h1, ?_, by norm_num [streakStep]⟩
  unfold monthlyStreaks calcStreaks
  rw [h1]
  norm_num [streakStep]

/-- Claim C5 (amended): in `RotationStrategy.calculate_metrics` a
month-over-month return of exactly zero leaves both the winning and the
losing streak counter unchanged — it neither extends nor resets either
streak — so a maximal streak may span a zero return month. -/
theorem zero_return_no_reset :
    (∀ s : Streaks, streakStep s 0 = s) ∧
    ∀ (pre post : List ℚ),
      calcStreaks (pre ++ 0 :: post) = calcStreaks (pre ++ post) := by
  have hz : ∀ s : Streaks, streakStep s 0 = s := by
    intro s
    simp [streakStep]
  refine ⟨hz, ?_⟩
  intro pre post
  unfold calcStreaks
  rw [List.foldl_append, List.foldl_append, List.foldl_cons, hz]

/-- Claim C6 (counterexample): a continuous weight of exactly 0.025, the
halfway tie, is discretized DOWN to 0.0 by the `round(w / 0.05) * 0.05` step,
not up to 0.05: the Python builtin rounds ties to even. -/
theorem tie_at_quarter_rounds_down :
    roundToGrid (1/40) = 0 ∧ roundToGrid (1/40) ≠ 1/20 := by
  have h : roundToGrid (1/40) = 0 := by
    rw [roundToGrid_eq]
    have harg : (20 : ℚ) * (1/40) = ((0 : ℤ) : ℚ) + 1/2 := by norm_num
    rw [harg, pyRound_int_add_half]
    norm_num
  exact ⟨h, by rw [h]; norm_num⟩

/-- Claim C6 (amended): the discretization step rounds every weight
independently (the rounding pass is an entrywise map) to a nearest multiple
of 0.05, and a weight lying exactly halfway between two grid points rounds to
the even multiple of 0.05 (round half to even): 0.025 to 0.0, 0.075 to 0.10. -/
theorem roundToGrid_half_to_even :
    (∀ tw : Weights, roundStage tw = List.map (fun p => (p.1, roundToGrid p.2)) tw) ∧
    (∀ w : ℚ, ∃ n : ℤ, roundToGrid w = (n : ℚ) / 20 ∧
      ∀ m : ℤ, |roundToGrid w - w| ≤ |(m : ℚ) / 20 - w|) ∧
    (∀ k : ℤ, roundToGrid (((2 * k + 1 : ℤ) : ℚ) / 40) =
      ((if k % 2 = 0 then k else k + 1 : ℤ) : ℚ) / 20) := by
  refine ⟨fun tw => rfl, ?_, ?_⟩
  · intro w
    obtain ⟨n, hn⟩ := roundToGrid_grid w
    exact ⟨n, hn, fun m => roundToGrid_nearest w m⟩
  · intro k
    rw [roundToGrid_eq]
    have harg : (20 : ℚ) * (((2 * k + 1 : ℤ) : ℚ) / 40) = (k : ℚ) + 1/2 := by
      push_cast
      ring
    rw [harg, pyRound_int_add_half]

/-- The 50 day simple moving average of `calculate_indicators` (line 29) for
one price column: pandas `rolling(window=50).mean()`, which is NaN until the
window is full. -/
def ma50 (prices : List ℚ) : List (Option ℚ) :=
  List.map (fun i =>
    if 49 ≤ i then some ((List.drop (i - 49) (List.take (i + 1) prices)).sum / 50)
    else none) (List.range prices.length)

/-- The 63 day return of `calculate_indicators` (line 32) for one price
column: pandas `pct_change(periods=63)`, price[t]/price[t-63] - 1, NaN for
the first 63 rows. -/
def ret63 (prices : List ℚ) : List (Option ℚ) :=
  List.map (fun i =>
    if 63 ≤ i then some (prices.getD i 0 / prices.getD (i - 63) 0 - 1)
    else none) (List.range prices.length)

theorem ma50_getD (l : List ℚ) (i : ℕ) (hi : i < l.length) :
    (ma50 l).getD i none =
      if 49 ≤ i then some ((List.drop (i - 49) (List.take (i + 1) l)).sum / 50)
      else none := by
  unfold ma50
  rw [List.getD_eq_getElem?_getD, List.getElem?_map, List.getElem?_range hi]
  rfl

theorem ret63_getD (l : List ℚ) (i : ℕ) (hi : i < l.length) :
    (ret63 l).getD i none =
      if 63 ≤ i then some (l.getD i 0 / l.getD (i - 63) 0 - 1) else none := by
  unfold ret63
  rw [List.getD_eq_getElem?_getD, List.getElem?_map, List.getElem?_range hi]
  rfl

/-- Claim C7 (counterexample): on a table of exactly 50 rows of constant price
100, the moving average at row index 49 — the 50th row, inside the first 50 —
is already defined and equals 100; only the first 49 rows are undefined. -/
theorem ma50_defined_at_row_50 :
    (ma50 (List.replicate 50 (100 : ℚ))).getD 49 none = some 100 ∧
    (ma50 (List.replicate 50 (100 : ℚ))).getD 48 none = none := by
  constructor
  · rw [ma50_getD _ 49 (by simp), if_pos (by norm_num)]
    have htake : List.take 50 (List.replicate 50 (100 : ℚ)) = List.replicate 50 (100 : ℚ) := by
      simp
    rw [htake]
    simp only [Nat.sub_self, List.drop_zero, List.sum_replicate]
    norm_num
  · rw [ma50_getD _ 48 (by simp), if_neg (by norm_num)]

/-- Claim C7 (amended): the 50 day moving average of `calculate_indicators`
is undefined for exactly the first 49 rows and from row 50 onwards equals the
unweighted mean of the trailing 50 rows including the current one; the 63 day
return is undefined for exactly the first 63 rows and afterwards equals
price[i]/price[i-63] - 1. -/
theorem indicators_warmup (prices : List ℚ) (i : ℕ) (hi : i < prices.length) :
    ((ma50 prices).getD i none = none ↔ i < 49) ∧
    ((ret63 prices).getD i none = none ↔ i < 63) ∧
    (49 ≤ i → ∃ window : List ℚ,
      window = List.drop (i - 49) (List.take (i + 1) prices) ∧ window.length = 50 ∧
      (ma50 prices).getD i none = some (window.sum / 50)) ∧
    (63 ≤ i → (ret63 prices).getD i none =
      some (prices.getD i 0 / prices.getD (i - 63) 0 - 1)) := by
  have hma := ma50_getD prices i hi
  have hret := ret63_getD prices i hi
  refine ⟨?_, ?_, ?_, ?_⟩
  · rcases le_or_lt 49 i with h | h
    · rw [hma, if_pos h]
      have hni : ¬ i < 49 := by omega
      simp [hni]
    · rw [hma, if_neg (by omega)]
      simp [h]
  · rcases le_or_lt 63 i with h | h
    · rw [hret, if_pos h]
      have hni : ¬ i < 63 := by omega
      simp [hni]
    · rw [hret, if_neg (by omega)]
      simp [h]
  · intro h
    refine ⟨_, rfl, ?_, by rw [hma, if_pos h]⟩
    have hlt : (List.take (i + 1) prices).length = i + 1 := by
      rw [List.length_take]
      omega
    rw [List.length_drop, hlt]
    omega
  · intro h
    rw [hret, if_pos h]

/-- Concrete run backing the amended claim C7, at row 63 of a 64 row table. -/
theorem indicators_warmup_witness :
    63 < (List.replicate 64 (100 : ℚ)).length ∧
    (((ma50 (List.replicate 64 (100 : ℚ))).getD 63 none = none ↔ 63 < 49) ∧
      ((ret63 (List.replicate 64 (100 : ℚ))).getD 63 none = none ↔ 63 < 63) ∧
      (49 ≤ 63 → ∃ window : List ℚ,
        window = List.drop (63 - 49) (List.take (63 + 1) (List.replicate 64 (100 : ℚ))) ∧
          window.length = 50 ∧
        (ma50 (List.replicate 64 (100 : ℚ))).getD 63 none = some (window.sum / 50)) ∧
      (63 ≤ 63 → (ret63 (List.replicate 64 (100 : ℚ))).getD 63 none =
        some ((List.replicate 64 (100 : ℚ)).getD 63 0 /
          (List.replicate 64 (100 : ℚ)).getD (63 - 63) 0 - 1))) :=
  ⟨by simp, indicators_warmup (List.replicate 64 (100 : ℚ)) 63 (by simp)⟩

/-- NaN propagating float product, for `units[t] * price[t]`. -/
def oMul (a b : Option ℚ) : Option ℚ :=
  match a, b with
  | some x, some y => some (x * y)
  | _, _ => none

/-- NaN propagating float addition, for `val + cash`. -/
def oAdd (a b : Option ℚ) : Option ℚ :=
  match a, b with
  | some x, some y => some (x + y)
  | _, _ => none

/-- NaN propagating float sum of a Python generator expression. -/
def oSum : List (Option ℚ) → Option ℚ
  | [] => some 0
  | x :: rest => oAdd x (oSum rest)

/-- The unguarded reallocation of `RotationStrategy.run_backtest` (lines
199-201 and 216-218): `units[t] = alloc / prices[t]` with no zero or NaN
check.  A zero price produces a nonfinite float (inf or nan) and a NaN
operand propagates; every nonfinite result is modelled by `none`. -/
def rotAlloc (val : Option ℚ) (w : ℚ) (p : Option ℚ) : Option ℚ :=
  match val, p with
  | some v, some price => if price = 0 then none else some (v * w / price)
  | _, _ => none

/-- The guarded reallocation of `FixedRebalanceStrategy.run_backtest` (lines
332-337 and 354-359): `if prices[t] > 0: units[t] = alloc / prices[t] else:
units[t] = 0`; the comparison is false for NaN, so a missing, zero or
negative price leaves the instrument at zero units. -/
def fixedAlloc (val : Option ℚ) (w : ℚ) (p : Option ℚ) : Option ℚ :=
  match p with
  | some price =>
      if 0 < price then
        match val with
        | some v => some (v * w / price)
        | none => none
      else some 0
  | none => some 0

/-- `groupby(...).apply(lambda x: x.index[-1])` on a sorted date index: the
dates that close their calendar group, for an arbitrary grouping map. -/
def lastOfGroup (g : Date → ℕ) : List Date → List Date
  | [] => []
  | [d] => [d]
  | d :: e :: rest =>
      if g d = g e then lastOfGroup g (e :: rest)
      else d :: lastOfGroup g (e :: rest)

/-- The daily loop of `RotationStrategy.run_backtest` (lines 206-220):
revalue the holdings at the day close (plus the zero cash balance), and on
each rebalancing date recompute the target weights and reallocate every
ticker of `self.tickers` at that day close price. -/
def rotLoop (S : Rot) (rebal : List Date) (units : Ticker → Option ℚ) (cash : ℚ) :
    List Date → List (Date × Option ℚ) × List (Date × Weights)
  | [] => ([], [])
  | d :: rest =>
      if rebal.contains d then
        ((d, oAdd (oSum (List.map (fun t => oMul (units t) (S.priceAt d t))
            (tickersOf S))) (some cash)) ::
          (rotLoop S rebal (fun t =>
            if (tickersOf S).contains t then
              rotAlloc (oAdd (oSum (List.map (fun u => oMul (units u) (S.priceAt d u))
                (tickersOf S))) (some cash)) (lookupD ((getSignals S d).1) t 0)
                (S.priceAt d t)
            else units t) cash rest).1,
          (d, (getSignals S d).1) ::
          (rotLoop S rebal (fun t =>
            if (tickersOf S).contains t then
              rotAlloc (oAdd (oSum (List.map (fun u => oMul (units u) (S.priceAt d u))
                (tickersOf S))) (some cash)) (lookupD ((getSignals S d).1) t 0)
                (S.priceAt d t)
            else units t) cash rest).2)
      else
        ((d, oAdd (oSum (List.map (fun t => oMul (units t) (S.priceAt d t))
            (tickersOf S))) (some cash)) ::
          (rotLoop S rebal units cash rest).1,
          (rotLoop S rebal units cash rest).2)

/-- The initial allocation of `RotationStrategy.run_backtest` (lines 198-202):
`units[t] = cash * initial_weights[t] / prices[t]`, unguarded, with the
initial cash of 10000 and the signals of the 64th trading day. -/
def rotUnits0 (S : Rot) : Ticker → Option ℚ :=
  fun t =>
    if (tickersOf S).contains t then
      rotAlloc (some 10000)
        (lookupD ((getSignals S ((List.drop 63 S.dates).headD 0)).1) t 0)
        (S.priceAt ((List.drop 63 S.dates).headD 0) t)
    else some 0

/-- `RotationStrategy.run_backtest` (lines 166-224), parametric in the
calendar month map used for the monthly grouping.  `none` models the
IndexError raised by `portfolio_series.iloc[0] = capital` on an empty table
and by `daily_dates[start_idx]` (with `start_idx = 63`) on a table of at most
63 rows.  The result is the daily value series from the 64th trading day on,
and the weights history (the initial row first, then one row per rebalancing
date in order). -/
def rotationRun (S : Rot) (month : Date → ℕ) :
    Option (List (Date × Option ℚ) × List (Date × Weights)) :=
  if S.dates.length = 0 then none
  else if S.dates.length ≤ 63 then none
  else
    some ((rotLoop S (lastOfGroup month S.dates) (rotUnits0 S) 0
        (List.drop 63 S.dates)).1,
      ((List.drop 63 S.dates).headD 0,
        (getSignals S ((List.drop 63 S.dates).headD 0)).1) ::
      (rotLoop S (lastOfGroup month S.dates) (rotUnits0 S) 0
        (List.drop 63 S.dates)).2)

/-- Shallow state of a `FixedRebalanceStrategy` instance. -/
structure Fixed where
  dates : List Date
  priceAt : Date → Row
  target_weights : Weights

/-- `self.tickers = sorted(list(target_weights.keys()))`. -/
def tickersOfF (F : Fixed) : List Ticker :=
  List.insertionSort (· ≤ ·) (List.map Prod.fst F.target_weights)

/-- The daily loop of `FixedRebalanceStrategy.run_backtest` (lines 341-359):
revalue the holdings (no cash term), and on each rebalancing date reallocate
every ticker with the guarded division at that day close price. -/
def fixedLoop (F : Fixed) (rebal : List Date) (units : Ticker → Option ℚ) :
    List Date → List (Date × Option ℚ) × List (Date × Weights)
  | [] => ([], [])
  | d :: rest =>
      if rebal.contains d then
        ((d, oSum (List.map (fun t => oMul (units t) (F.priceAt d t)) (tickersOfF F))) ::
          (fixedLoop F rebal (fun t =>
            if (tickersOfF F).contains t then
              fixedAlloc (oSum (List.map (fun u => oMul (units u) (F.priceAt d u))
                (tickersOfF F))) (lookupD F.target_weights t 0) (F.priceAt d t)
            else units t) rest).1,
          (d, F.target_weights) ::
          (fixedLoop F rebal (fun t =>
            if (tickersOfF F).contains t then
              fixedAlloc (oSum (List.map (fun u => oMul (units u) (F.priceAt d u))
                (tickersOfF F))) (lookupD F.target_weights t 0) (F.priceAt d t)
            else units t) rest).2)
      else
        ((d, oSum (List.map (fun t => oMul (units t) (F.priceAt d t)) (tickersOfF F))) ::
          (fixedLoop F rebal units rest).1,
          (fixedLoop F rebal units rest).2)

/-- `FixedRebalanceStrategy.run_backtest` (lines 293-363), parametric in the
calendar bucket map selected by the frequency string.  An empty table returns
empty results (lines 315-316); the first recorded value is the initial
capital of 10000 by direct assignment (line 339). -/
def fixedRun (F : Fixed) (bucket : Date → ℕ) :
    List (Date × Option ℚ) × List (Date × Weights) :=
  match F.dates with
  | [] => ([], [])
  | d0 :: rest =>
      ((d0, some 10000) ::
        (fixedLoop F (lastOfGroup bucket F.dates) (fun t =>
          if (tickersOfF F).contains t then
            fixedAlloc (some 10000) (lookupD F.target_weights t 0) (F.priceAt d0 t)
          else some 0) rest).1,
        (d0, F.target_weights) ::
        (fixedLoop F (lastOfGroup bucket F.dates) (fun t =>
          if (tickersOfF F).contains t then
            fixedAlloc (some 10000) (lookupD F.target_weights t 0) (F.priceAt d0 t)
          else some 0) rest).2)

/-- An empty price table for the rotation backtest. -/
def exC3a : Rot :=
  { dates := []
    priceAt := fun _ _ => some 100
    maAt := fun _ _ => some 90
    r3At := fun _ _ => some 0
    base_weights := [(0, 1)]
    trend_adj := 1/10
    rel_adj := 1/20
    benchmark := 0
    relaxed_constraint := false }

/-- A 50 row price table for the rotation backtest, below the 63 row warm-up. -/
def exC3b : Rot :=
  { dates := List.range 50
    priceAt := fun _ _ => some 100
    maAt := fun _ _ => some 90
    r3At := fun _ _ => some 0
    base_weights := [(0, 1)]
    trend_adj := 1/10
    rel_adj := 1/20
    benchmark := 0
    relaxed_constraint := false }

/-- Claim C3 (code evidence): `RotationStrategy.run_backtest` does not return
empty results on an empty or 50 row price table — it raises IndexError
(modelled by `none`): `portfolio_series.iloc[0] = capital` fails on the empty
index, and `daily_dates[63]` is out of bounds for 50 rows.  The claimed
graceful degradation is absent from the code. -/
theorem rotation_backtest_raises_on_short :
    rotationRun exC3a (fun d => d / 21) = none ∧
    rotationRun exC3b (fun d => d / 21) = none := by
  constructor
  · rfl
  · rfl

/-- Claim C4 (counterexample): in `RotationStrategy.run_backtest` a zero
price does NOT leave the instrument at zero units: the unguarded division
`alloc / prices[t]` with `alloc = 10000 * 1.0` and price 0.0 produces a
nonfinite float, modelled by `none`, which is not zero units. -/
theorem rotation_zero_price_not_zero_units :
    rotAlloc (some 10000) 1 (some 0) = none ∧
    rotAlloc (some 10000) 1 (some 0) ≠ some 0 := by
  have h1 : rotAlloc (some 10000) 1 (some 0) = none := rfl
  refine ⟨h1, ?_⟩
  rw [h1]
  simp

/-- Claim C4 (amended): the zero-or-missing price guard exists only in
`FixedRebalanceStrategy.run_backtest`, where such an instrument is held at
zero units with no error; `RotationStrategy.run_backtest` performs the
division unconditionally, and a zero price yields a nonfinite value while a
NaN operand propagates. -/
theorem zero_price_guard_fixed_only :
    (∀ (val : Option ℚ) (w : ℚ),
      fixedAlloc val w (some 0) = some 0 ∧ fixedAlloc val w none = some 0) ∧
    (∀ (v w : ℚ), rotAlloc (some v) w (some 0) = none) ∧
    (∀ (w : ℚ) (p : Option ℚ), rotAlloc none w p = none) := by
  refine ⟨fun val w => ⟨?_, rfl⟩, fun v w => ?_, fun w p => ?_⟩
  · show (if (0 : ℚ) < 0 then (match val with
      | some v => some (v * w / 0)
      | none => none) else some 0) = some 0
    rw [if_neg (lt_irrefl (0 : ℚ))]
  · show (if (0 : ℚ) = 0 then none else some (v * w / 0)) = none
    rw [if_pos rfl]
  · cases p <;> rfl

theorem getLast_sorted_max (l : List Date) (d : Date)
    (hs : List.Pairwise (· < ·) l) (hm : d ∈ l) (hub : ∀ x ∈ l, x ≤ d) :
    l.getLast? = some d := by
  induction l with
  | nil => simp at hm
  | cons a l ih =>
      cases l with
      | nil =>
          simp only [List.mem_singleton] at hm
          simp [hm]
      | cons b l2 =>
          rw [List.getLast?_cons_cons]
          apply ih
          · exact (List.pairwise_cons.mp hs).2
          · rcases List.mem_cons.mp hm with he | hmem
            · exfalso
              have hab : a < b := (List.pairwise_cons.mp hs).1 b (List.mem_cons_self _ _)
              have hbd : b ≤ d := hub b (List.mem_cons_of_mem _ (List.mem_cons_self _ _))
              rw [he] at hbd
              exact absurd (lt_of_lt_of_le hab hbd) (lt_irrefl a)
            · exact hmem
          · intro x hx
            exact hub x (List.mem_cons_of_mem _ hx)

theorem resolveDate_self (dates : List Date) (d : Date)
    (hs : List.Pairwise (· < ·) dates) (hm : d ∈ dates) :
    resolveDate dates d = some d := by
  unfold resolveDate
  apply getLast_sorted_max
  · exact hs.filter _
  · exact List.mem_filter.mpr ⟨hm, by simp⟩
  · intro x hx
    have := List.of_mem_filter hx
    simpa using this

theorem keys_applyDiff (rel : Bool) (b : Ticker) (f2 : Weights) :
    List.map Prod.fst (applyDiff rel b f2) = List.map Prod.fst f2 := by
  unfold applyDiff
  by_cases h0 : pyRound2 (1 - sumW f2) = 0
  · rw [if_pos h0]
  · rw [if_neg h0]
    cases hpm : pickMax f2 (candList rel b f2) with
    | some mt =>
        exact keys_setW _ _ _
    | none =>
        show List.map Prod.fst (if (List.map Prod.fst f2).contains b
            then setW f2 b (fun v => v + pyRound2 (1 - sumW f2)) else f2) =
          List.map Prod.fst f2
        by_cases hc : (List.map Prod.fst f2).contains b = true
        · rw [if_pos hc]
          exact keys_setW _ _ _
        · rw [if_neg hc]

theorem keys_discretize (rel : Bool) (b : Ticker) (tw : Weights) :
    List.map Prod.fst (discretize rel b tw) = List.map Prod.fst tw := by
  unfold discretize
  exact (keys_applyDiff rel b (roundStage tw)).trans (keys_roundStage tw)

theorem strict_keys_perm (S : Rot)
    (hnd : (List.map Prod.fst S.base_weights).Nodup)
    (hb : S.benchmark ∈ List.map Prod.fst S.base_weights) :
    (S.benchmark :: List.filter (fun t => t != S.benchmark) (tickersOf S)).Perm
      (tickersOf S) := by
  have hbt : S.benchmark ∈ tickersOf S := (mem_tickers S _).mpr hb
  have hnd2 := tickers_nodup S hnd
  have he : (tickersOf S).erase S.benchmark =
      (tickersOf S).filter (fun t => t != S.benchmark) := hnd2.erase_eq_filter _
  rw [← he]
  exact (List.perm_cons_erase hbt).symm

theorem keys_targetWeights_perm (S : Rot) (d : Date)
    (hnd : (List.map Prod.fst S.base_weights).Nodup)
    (hb : S.benchmark ∈ List.map Prod.fst S.base_weights) :
    (List.map Prod.fst (targetWeights S d)).Perm (tickersOf S) := by
  unfold targetWeights
  split_ifs with hmode
  · unfold relaxedTarget
    split_ifs with h
    · rw [keys_map_pair]
    · exact (tickers_perm S).symm
  · rw [keys_strictTarget]
    exact strict_keys_perm S hnd hb

theorem sum_lookupD_keys (w : Weights) (hnd : (List.map Prod.fst w).Nodup) :
    (List.map (fun t => lookupD w t 0) (List.map Prod.fst w)).sum = sumW w := by
  induction w with
  | nil => simp [sumW]
  | cons a w ih =>
      obtain ⟨k, v⟩ := a
      simp only [List.map_cons, List.nodup_cons] at hnd ⊢
      rw [List.sum_cons]
      have hhead : lookupD ((k, v) :: w) k 0 = v := by
        unfold lookupD
        rw [lookup_cons, if_pos rfl]
        rfl
      have htail : List.map (fun t => lookupD ((k, v) :: w) t 0) (List.map Prod.fst w) =
          List.map (fun t => lookupD w t 0) (List.map Prod.fst w) := by
        apply List.map_congr_left
        intro t ht
        unfold lookupD
        rw [lookup_cons, if_neg ?hne]
        case hne =>
          intro hc
          rw [hc] at ht
          exact hnd.1 ht
      rw [hhead, htail, ih hnd.2, sumW_pair]

theorem sum_lookupD_perm (w : Weights) (l : List Ticker)
    (hnd : (List.map Prod.fst w).Nodup)
    (hperm : (List.map Prod.fst w).Perm l) :
    (List.map (fun t => lookupD w t 0) l).sum = sumW w := by
  have h1 : (List.map (fun t => lookupD w t 0) (List.map Prod.fst w)).Perm
      (List.map (fun t => lookupD w t 0) l) := hperm.map _
  rw [← h1.sum_eq]
  exact sum_lookupD_keys w hnd

theorem oSum_map_some (l : List Ticker) (f : Ticker → ℚ) :
    oSum (List.map (fun t => some (f t)) l) = some ((List.map f l).sum) := by
  induction l with
  | nil => rfl
  | cons a l ih =>
      simp only [List.map_cons, List.sum_cons, oSum, ih, oAdd]

theorem rotLoop_head (S : Rot) (rebal : List Date) (units : Ticker → Option ℚ)
    (cash : ℚ) (d : Date) (rest : List Date) :
    (rotLoop S rebal units cash (d :: rest)).1.head? =
      some (d, oAdd (oSum (List.map (fun t => oMul (units t) (S.priceAt d t))
        (tickersOf S))) (some cash)) := by
  unfold rotLoop
  by_cases h : d ∈ rebal <;> simp [h]

/-- Claim C9: the portfolio value recorded on the first allocated day of a
backtest equals the initial notional capital of 10000 exactly.  For
`RotationStrategy.run_backtest` this is the value recomputed on the 64th
trading day immediately after the initial allocation, valid whenever the base
dict is a Python dict (distinct keys) containing the benchmark, the date
index is strictly increasing with more than 63 rows, and every price on the
start date is a nonzero number; for `FixedRebalanceStrategy.run_backtest` the
first trading day value is the capital by direct assignment. -/
theorem first_value_is_capital :
    (∀ (S : Rot) (month : Date → ℕ),
      (List.map Prod.fst S.base_weights).Nodup →
      S.benchmark ∈ List.map Prod.fst S.base_weights →
      List.Pairwise (· < ·) S.dates →
      63 < S.dates.length →
      (∀ t ∈ tickersOf S, ∃ p : ℚ, p ≠ 0 ∧
        S.priceAt ((List.drop 63 S.dates).headD 0) t = some p) →
      ∃ hist wh, rotationRun S month = some (hist, wh) ∧
        hist.head? = some ((List.drop 63 S.dates).headD 0, some 10000)) ∧
    (∀ (F : Fixed) (bucket : Date → ℕ) (d0 : Date) (rest : List Date),
      F.dates = d0 :: rest →
      (fixedRun F bucket).1.head? = some (d0, some 10000)) := by
  constructor
  · intro S month hnd hb hsort hlen hp
    have hne63 : List.drop 63 S.dates ≠ [] := by
      intro hc
      have hl := List.length_drop 63 S.dates
      rw [hc] at hl
      simp only [List.length_nil] at hl
      omega
    obtain ⟨d63, rest2, hdr⟩ := List.exists_cons_of_ne_nil hne63
    have hstart : (List.drop 63 S.dates).headD 0 = d63 := by
      rw [hdr]
      rfl
    have hd63mem : d63 ∈ S.dates :=
      List.drop_subset 63 S.dates (by rw [hdr]; exact List.mem_cons_self _ _)
    have hres : resolveDate S.dates d63 = some d63 := resolveDate_self _ _ hsort hd63mem
    have hbne : S.base_weights ≠ [] := by
      intro hc
      rw [hc] at hb
      simp at hb
    have hgs : (getSignals S d63).1 =
        discretize S.relaxed_constraint S.benchmark (targetWeights S d63) := by
      unfold getSignals
      rw [hres]
    have hsum1 : sumW (getSignals S d63).1 = 1 := by
      rw [hgs]
      exact (discretize_spec _ _ _ (targetWeights_ne_nil S d63 hbne)
        (keys_targetWeights_nodup S d63 hnd)).1
    have hkeysperm : (List.map Prod.fst (getSignals S d63).1).Perm (tickersOf S) := by
      rw [hgs, keys_discretize]
      exact keys_targetWeights_perm S d63 hnd hb
    have hkeysnodup : (List.map Prod.fst (getSignals S d63).1).Nodup := by
      rw [hgs, keys_discretize]
      exact keys_targetWeights_nodup S d63 hnd
    have hlooksum :
        (List.map (fun t => lookupD (getSignals S d63).1 t 0) (tickersOf S)).sum = 1 := by
      rw [sum_lookupD_perm _ _ hkeysnodup hkeysperm]
      exact hsum1
    have hmapeq : List.map (fun t => oMul (rotUnits0 S t) (S.priceAt d63 t)) (tickersOf S) =
        List.map (fun t => some (10000 * lookupD (getSignals S d63).1 t 0))
          (tickersOf S) := by
      apply List.map_congr_left
      intro t ht
      obtain ⟨p, hp0, hpe⟩ := hp t ht
      rw [hstart] at hpe
      unfold rotUnits0
      rw [hstart, if_pos ((contains_iff _ _).mpr ht), hpe]
      show oMul (if p = 0 then none
          else some (10000 * lookupD ((getSignals S d63).1) t 0 / p)) (some p) =
        some (10000 * lookupD (getSignals S d63).1 t 0)
      rw [if_neg hp0]
      show some (10000 * lookupD ((getSignals S d63).1) t 0 / p * p) =
        some (10000 * lookupD (getSignals S d63).1 t 0)
      rw [div_mul_cancel₀ _ hp0]
    have hval : oAdd (oSum (List.map (fun t => oMul (rotUnits0 S t) (S.priceAt d63 t))
        (tickersOf S))) (some 0) = some 10000 := by
      rw [hmapeq, oSum_map_some]
      show some ((List.map (fun t => 10000 * lookupD (getSignals S d63).1 t 0)
        (tickersOf S)).sum + 0) = some 10000
      rw [List.sum_map_mul_left, hlooksum]
      norm_num
    have hrun : rotationRun S month = some
        ((rotLoop S (lastOfGroup month S.dates) (rotUnits0 S) 0 (List.drop 63 S.dates)).1,
          ((List.drop 63 S.dates).headD 0,
            (getSignals S ((List.drop 63 S.dates).headD 0)).1) ::
          (rotLoop S (lastOfGroup month S.dates) (rotUnits0 S) 0
            (List.drop 63 S.dates)).2) := by
      unfold rotationRun
      rw [if_neg (by omega), if_neg (by omega)]
    refine ⟨_, _, hrun, ?_⟩
    rw [hdr, rotLoop_head, hval]
    rfl
  · intro F bucket d0 rest hdr0
    unfold fixedRun
    rw [hdr0]
    rfl

/-- Concrete rotation strategy backing claim C9: 70 trading days. -/
def exC9r : Rot :=
  { dates := List.range 70
    priceAt := fun _ _ => some 100
    maAt := fun _ _ => some 90
    r3At := fun _ _ => some 0
    base_weights := [(0, 3/5), (1, 2/5)]
    trend_adj := 1/10
    rel_adj := 1/20
    benchmark := 0
    relaxed_constraint := false }

/-- Concrete fixed strategy backing claim C9: three trading days. -/
def exC9f : Fixed :=
  { dates := [11, 12, 13]
    priceAt := fun _ _ => some 50
    target_weights := [(0, 1)] }

theorem first_value_is_capital_witness :
    (∃ hist wh, rotationRun exC9r (fun d => d / 21) = some (hist, wh) ∧
      hist.head? = some ((List.drop 63 exC9r.dates).headD 0, some 10000)) ∧
    (fixedRun exC9f (fun d => d / 63)).1.head? = some (11, some 10000) :=
  ⟨first_value_is_capital.1 exC9r (fun d => d / 21) (by decide) (by decide)
      (List.pairwise_lt_range 70) (by decide)
      (fun t ht => ⟨100, by norm_num, rfl⟩),
    first_value_is_capital.2 exC9f (fun d => d / 63) 11 [12, 13] rfl⟩
